import Mathlib

/-!
Verification model of the `w2r` vocabulary-tracking utility.

The source is a small Go program (`main.go`, sqlc queries in `query.sql`)
backed by a single SQLite table

    CREATE TABLE word (word TEXT PRIMARY KEY, zh_trans TEXT,
                       added_count INTEGER, lookup_count INTEGER);

We model strings as Lean `String`/`List Char`, the table as a list of rows in
insertion order, SQL `NULL` as `Option`, and the program's operations as pure
functions on that list.  `log.Fatal` is modelled by a `fatal` result in an
explicit fault-injection semantics.
-/

namespace W2R

/-- Models Go `unicode.IsSpace` (the set trimmed by `strings.TrimSpace`):
ASCII whitespace plus the Unicode `White_Space` code points. -/
def goIsSpace (c : Char) : Bool :=
  c = ' ' || c = '\t' || c = '\n' || c.toNat = 0xB || c.toNat = 0xC ||
  c = '\r' || c.toNat = 0x85 || c.toNat = 0xA0 || c.toNat = 0x1680 ||
  (0x2000 ≤ c.toNat && c.toNat ≤ 0x200A) || c.toNat = 0x2028 ||
  c.toNat = 0x2029 || c.toNat = 0x202F || c.toNat = 0x205F || c.toNat = 0x3000

/-- Models Go `strings.ToLower` on one character (`unicode.ToLower`, the
Unicode simple case mappings) restricted to every mapping that can produce
an `a`-`z` character: `A`-`Z` map to `a`-`z`, U+0130 (LATIN CAPITAL LETTER I
WITH DOT ABOVE) maps to `i`, and U+212A (KELVIN SIGN) maps to `k` — these
are the only code points whose simple lowercase lies in `a`-`z`.  Every
other simple case mapping sends a non-`a`-`z` character to a non-`a`-`z`
character, so modelling it as the identity changes neither which tokens pass
`isValidWord` (such a token is dropped either way) nor the content of a kept
token (a kept token's characters are all fixed points of lowercasing). -/
def goToLowerChar (c : Char) : Char :=
  if 'A' ≤ c ∧ c ≤ 'Z' then Char.ofNat (c.toNat + 32)
  else if c.toNat = 0x130 then 'i'
  else if c.toNat = 0x212A then 'k'
  else c

/-- Models Go `strings.TrimSpace`: drop whitespace from both ends. -/
def goTrimSpace (l : List Char) : List Char :=
  ((l.dropWhile goIsSpace).reverse.dropWhile goIsSpace).reverse

/-- Models `strings.Split(s, ",")`: accumulator-based splitting on `,`. -/
def splitOnCommaAux : List Char → List Char → List (List Char)
  | [], acc => [acc.reverse]
  | c :: cs, acc =>
      if c = ',' then acc.reverse :: splitOnCommaAux cs []
      else splitOnCommaAux cs (c :: acc)

/-- Models `strings.Split(s, ",")` from `filterWords` in `main.go`. -/
def splitOnComma (l : List Char) : List (List Char) :=
  splitOnCommaAux l []

/-- Models `isValidWord` in `main.go`: the regular expression
`^[a-z]+$` — one or more lowercase Latin letters, nothing else. -/
def isValidWord (l : List Char) : Bool :=
  !l.isEmpty && l.all (fun c => 'a' ≤ c && c ≤ 'z')

/-- The per-piece normalisation done inside the `filterWords` loop:
`strings.TrimSpace` then `strings.ToLower`. -/
def normalizeTok (tok : List Char) : List Char :=
  (goTrimSpace tok).map goToLowerChar

/-- Models `filterWords` in `main.go`: split on `,`, and for each piece trim,
lowercase, and append it to the result exactly when it is a valid word. -/
def filterWords (s : String) : List String :=
  (splitOnComma s.data).foldl
    (fun results w =>
      let w := goTrimSpace w
      let w := w.map goToLowerChar
      if isValidWord w then results ++ [String.mk w] else results)
    []

/-- Models one row of the `word` table (the sqlc `Word` struct): `zh_trans`,
`added_count` and `lookup_count` have no NOT NULL constraint, so they are
nullable (`sql.NullString` / `sql.NullInt64`), modelled as `Option`. -/
structure Word where
  word : String
  zhTrans : Option String
  addedCount : Option Int
  lookupCount : Option Int
deriving Repr, DecidableEq

/-- The `word` table: one row per insertion, in insertion (rowid) order. -/
abbrev Db := List Word

/-- Models the sqlc query `CountWord`:
`SELECT COUNT(*) FROM word WHERE word = ?`. -/
def countWord (db : Db) (w : String) : Nat :=
  (db.filter (fun r => r.word == w)).length

/-- Models the sqlc query `CreateWord`:
`INSERT INTO word (word, zh_trans, added_count, lookup_count)
VALUES (?, ?, 0, 0)`. -/
def createWord (db : Db) (w : String) (trans : Option String) : Db :=
  db ++ [⟨w, trans, some 0, some 0⟩]

/-- The per-row effect of the sqlc query `AddWordCount`:
`UPDATE word SET added_count = added_count + 1 WHERE word = ?`
(SQL `NULL + 1 = NULL`, hence `Option.map`). -/
def addWordCountFun (w : String) (r : Word) : Word :=
  if r.word == w then { r with addedCount := r.addedCount.map (· + 1) }
  else r

/-- Models the sqlc query `AddWordCount` on the whole table. -/
def addWordCount (db : Db) (w : String) : Db :=
  db.map (addWordCountFun w)

/-- Models the sqlc query `DeleteWord`: `DELETE FROM word WHERE word = ?`. -/
def deleteWord (db : Db) (w : String) : Db :=
  db.filter (fun r => !(r.word == w))

/-- Models the sqlc query `Listword`: `SELECT * FROM word`. -/
def listword (db : Db) : Db := db

/-- Models `WordDB.AddWord` in `main.go` (store effect, error-free run):
count the rows for `word`; if zero, `CreateWord` with a NULL translation,
else `AddWordCount`. -/
def addWord (db : Db) (w : String) : Db :=
  if countWord db w = 0 then createWord db w none else addWordCount db w

/-- The row the code reads back for a word: `db.find?` mirrors
`GetWord`/first-match lookup on the primary key. -/
def getRow (db : Db) (w : String) : Option Word :=
  db.find? (fun r => r.word == w)

/-- One displayed line of the summary: `ShowSummary` in `main.go` prints
`word.Word`, `word.AddedCount.Int64` (a Go `NullInt64` reads as `0` when
invalid), `lookupCount` defaulted to `0` when `!word.LookupCount.Valid`, and
`zhTrans` defaulted to `""` when `!word.ZhTrans.Valid`. -/
structure SummaryLine where
  word : String
  added : Int
  lookup : Int
  trans : String
deriving Repr, DecidableEq

/-- Field extraction performed by `ShowSummary` for one row. -/
def summaryLine (r : Word) : SummaryLine :=
  ⟨r.word, r.addedCount.getD 0, r.lookupCount.getD 0, r.zhTrans.getD ""⟩

/-- Models `WordDB.ShowSummary` in `main.go`: fetch all rows with `Listword`
and extract the four displayed fields per row, in order. -/
def showSummary (db : Db) : List SummaryLine :=
  (listword db).map summaryLine

/-- Modelled from the spec: the hypertext renderer's per-row extraction.
The embedded template `words.html` is not among the repository sources; per
the spec the hypertext table shows, for the rows fetched by the same
`Listword` read, the same four fields — word, addedCount, lookupCount, and
translation with the empty string for an absent value. -/
def webRows (db : Db) : List SummaryLine :=
  (listword db).map (fun r =>
    ⟨r.word, r.addedCount.getD 0, r.lookupCount.getD 0, r.zhTrans.getD ""⟩)

/-- Models the `-d` branch of `main`: `w.DelWord(*del)` — the raw flag value
is passed to the store with no trimming, lowercasing or validation. -/
def runDelete (db : Db) (arg : String) : Db :=
  deleteWord db arg

/-- Performing the add action `n` times in sequence on the same word. -/
def addNTimes : Nat → Db → String → Db
  | 0, db, _ => db
  | n + 1, db, w => addNTimes n (addWord db w) w

/-- The exposed operations of the Command Dispatcher in `main.go`, as they
act on the store: `-init` (schema creation; no row effect), `-a` (word
filter then `AddWord` per word, in order), `-d` (raw delete), `-s` and `-D`
(read-only). -/
inductive Op where
  | initSchema : Op
  | add (s : String) : Op
  | del (arg : String) : Op
  | showOp : Op
  | serve : Op
deriving Repr, DecidableEq

/-- The store effect of one exposed operation. -/
def applyOp : Op → Db → Db
  | .initSchema, db => db
  | .add s, db => (filterWords s).foldl addWord db
  | .del a, db => deleteWord db a
  | .showOp, db => db
  | .serve, db => db

/-- The store effect of a sequence of exposed operations, run in order. -/
def applyOps (ops : List Op) (db : Db) : Db :=
  ops.foldl (fun d op => applyOp op d) db

/-- The record for `w` stays alive (present) after each step of `ops`. -/
def aliveThrough : List Op → Db → String → Prop
  | [], _, _ => True
  | op :: rest, db, w =>
      (getRow (applyOp op db) w).isSome = true ∧ aliveThrough rest (applyOp op db) w

/-- Counter evolution across one step: `lookup_count` is untouched and the
displayed `added_count` does not decrease. -/
def stepRel (r r' : Word) : Prop :=
  r'.lookupCount = r.lookupCount ∧ r.addedCount.getD 0 ≤ r'.addedCount.getD 0

/-- The record for `w`, whenever present, has `lookup_count = 0`. -/
def lookupZeroAt (db : Db) (w : String) : Prop :=
  ∀ r, getRow db w = some r → r.lookupCount = some 0

/-- Every record in the store has `lookup_count = 0`. -/
def allLookupZero (db : Db) : Prop :=
  ∀ r ∈ db, r.lookupCount = some 0

/-- Outcome of running a store-calling action: `fatal` models `log.Fatal`,
which logs and terminates the process. -/
inductive RunResult (α : Type) where
  | ok (val : α) : RunResult α
  | fatal : RunResult α
deriving Repr, DecidableEq

/-- Injected store faults for one `AddWord` call: whether the `CountWord`
query errors, whether the `CreateWord` INSERT errors, whether the
`AddWordCount` UPDATE errors. -/
structure Faults where
  countErr : Bool
  insErr : Bool
  updErr : Bool
deriving Repr, DecidableEq

/-- Models `WordDB.AddWord` in `main.go` under injected store faults.
`count, _ := queries.CountWord(...)` DISCARDS a query error, so on a count
fault `count` reads as the Go zero value `0` and execution continues.  The
INSERT fails on an injected fault or on the `word` PRIMARY KEY constraint
(a row for `w` already present); INSERT and UPDATE errors hit `log.Fatal`. -/
def addWordE (db : Db) (w : String) (f : Faults) : RunResult Db :=
  let count := if f.countErr then 0 else countWord db w
  if count = 0 then
    if f.insErr || !(countWord db w == 0) then .fatal
    else .ok (createWord db w none)
  else
    if f.updErr then .fatal else .ok (addWordCount db w)

/-- Models the `-a` loop of `main` under injected faults: the filtered words
are added in order, and a `fatal` outcome stops the loop (the process has
exited), so later words are never processed. -/
def addAllE : Db → List (String × Faults) → RunResult Db
  | db, [] => .ok db
  | db, (w, f) :: rest =>
      match addWordE db w f with
      | .fatal => .fatal
      | .ok db' => addAllE db' rest

/-- Models `WordDB.DelWord` in `main.go` under an injected store fault:
a DELETE error hits `log.Fatal`. -/
def delWordE (db : Db) (w : String) (delErr : Bool) : RunResult Db :=
  if delErr then .fatal else .ok (deleteWord db w)

/-- The external dictionary base URL in `RunWebServer`. -/
def dictURL : String :=
  "https://dictionary.cambridge.org/dictionary/english-chinese-simplified/"

/-- Models Go `strings.TrimPrefix`: drop the leading occurrence, or return
the string unchanged when it does not start with it. -/
def goTrimPre (s pre : List Char) : List Char :=
  if pre.isPrefixOf s then s.drop pre.length else s

/-- Models Go `strings.TrimSuffix`: drop the trailing occurrence, or return
the string unchanged when it does not end with it. -/
def goTrimSuf (s suf : List Char) : List Char :=
  if suf.isSuffixOf s then s.take (s.length - suf.length) else s

/-- Responses the `/word/` handler can produce: `http.Error` with a status
code and body, or `http.Redirect` with a status code and target URL. -/
inductive HttpResp where
  | httpError (code : Nat) (body : String) : HttpResp
  | redirect (code : Nat) (location : String) : HttpResp
deriving Repr, DecidableEq

/-- The word extracted from a request path by the `/word/` handler:
`strings.TrimPrefix(r.URL.Path, "/word/")` then `strings.TrimSuffix(_, "/")`. -/
def wordOfPath (path : String) : List Char :=
  goTrimSuf (goTrimPre path.data "/word/".data) "/".data

/-- Models the `/word/` handler in `RunWebServer`: 404 `http.Error` when the
extracted word is empty, otherwise a 301 `http.Redirect` to the dictionary
URL concatenated with the word. -/
def wordHandler (path : String) : HttpResp :=
  let w := goTrimPre path.data "/word/".data
  let w := goTrimSuf w "/".data
  if w = [] then .httpError 404 "word not found"
  else .redirect 301 (String.mk (dictURL.data ++ w))

/-! ## Helper lemmas -/

theorem filterWords_foldl (acc : List String) (toks : List (List Char)) :
    toks.foldl
      (fun results w =>
        let w := goTrimSpace w
        let w := w.map goToLowerChar
        if isValidWord w then results ++ [String.mk w] else results)
      acc
      = acc ++ ((toks.map normalizeTok).filter isValidWord).map String.mk := by
  induction toks generalizing acc with
  | nil => simp
  | cons t ts ih =>
      simp only [List.foldl_cons, List.map_cons, List.filter_cons, normalizeTok]
      by_cases h : isValidWord ((goTrimSpace t).map goToLowerChar) = true
      · simp [h, ih]
      · simp only [Bool.not_eq_true] at h
        simp [h, ih]

theorem countWord_eq_zero {db : Db} {w : String} :
    countWord db w = 0 ↔ ∀ r ∈ db, r.word ≠ w := by
  simp [countWord, List.length_eq_zero, List.filter_eq_nil_iff]

theorem addWord_of_count_zero {db : Db} {w : String} (h : countWord db w = 0) :
    addWord db w = db ++ [⟨w, none, some 0, some 0⟩] := by
  simp [addWord, h, createWord]

theorem word_addWordCountFun (w : String) (r : Word) :
    (addWordCountFun w r).word = r.word := by
  unfold addWordCountFun
  split <;> rfl

theorem filter_addWordCount (db : Db) (w w' : String) :
    (addWordCount db w).filter (fun r => r.word == w')
      = (db.filter (fun r => r.word == w')).map (addWordCountFun w) := by
  unfold addWordCount
  rw [List.filter_map]
  congr 1
  apply List.filter_congr
  intro r _
  simp [Function.comp, word_addWordCountFun]

theorem countWord_addWordCount (db : Db) (w w' : String) :
    countWord (addWordCount db w) w' = countWord db w' := by
  unfold countWord
  rw [filter_addWordCount]
  simp

theorem filter_eq_nil_of_count_zero {db : Db} {w : String}
    (h : countWord db w = 0) :
    db.filter (fun r => r.word == w) = [] := by
  unfold countWord at h
  exact List.length_eq_zero.mp h

theorem addNTimes_filter (w : String) :
    ∀ (m : Nat) (db : Db) (a : Int),
      db.filter (fun r => r.word == w) = [⟨w, none, some a, some 0⟩] →
      (addNTimes m db w).filter (fun r => r.word == w)
        = [⟨w, none, some (a + m), some 0⟩] := by
  intro m
  induction m with
  | zero =>
      intro db a h
      simpa using h
  | succ n ih =>
      intro db a h
      have hcount : countWord db w ≠ 0 := by
        unfold countWord
        rw [h]
        simp
      have hstep : addWord db w = addWordCount db w := by
        simp [addWord, hcount]
      show (addNTimes n (addWord db w) w).filter _ = _
      rw [hstep]
      have hfil : (addWordCount db w).filter (fun r => r.word == w)
          = [⟨w, none, some (a + 1), some 0⟩] := by
        rw [filter_addWordCount, h]
        simp [addWordCountFun]
      rw [ih (addWordCount db w) (a + 1) hfil]
      congr 3
      push_cast
      ring

theorem stepRel_refl (r : Word) : stepRel r r :=
  ⟨rfl, le_refl _⟩

theorem stepRel_trans {r₁ r₂ r₃ : Word} (h₁ : stepRel r₁ r₂)
    (h₂ : stepRel r₂ r₃) : stepRel r₁ r₃ :=
  ⟨h₂.1.trans h₁.1, h₁.2.trans h₂.2⟩

theorem stepRel_addWordCountFun (w : String) (r : Word) :
    stepRel r (addWordCountFun w r) := by
  unfold addWordCountFun stepRel
  split
  · refine ⟨rfl, ?_⟩
    cases h : r.addedCount <;> simp [h]
  · exact stepRel_refl r

theorem lookupCount_addWordCountFun (w : String) (r : Word) :
    (addWordCountFun w r).lookupCount = r.lookupCount := by
  unfold addWordCountFun
  split <;> rfl

theorem getRow_addWordCount (db : Db) (w w' : String) :
    getRow (addWordCount db w) w' = (getRow db w').map (addWordCountFun w) := by
  induction db with
  | nil => rfl
  | cons r rs ih =>
      show ((addWordCountFun w r) :: addWordCount rs w).find? (fun x => x.word == w')
        = ((r :: rs).find? (fun x => x.word == w')).map (addWordCountFun w)
      by_cases h : (r.word == w') = true
      · rw [List.find?_cons_of_pos (addWordCount rs w)
            (by simpa [word_addWordCountFun] using h),
          List.find?_cons_of_pos rs h]
        rfl
      · rw [List.find?_cons_of_neg (addWordCount rs w)
            (by simpa [word_addWordCountFun] using h),
          List.find?_cons_of_neg rs h]
        exact ih

theorem find?_filter_beq (db : Db) (w a : String) (hne : w ≠ a) :
    (db.filter (fun r => !(r.word == a))).find? (fun r => r.word == w)
      = db.find? (fun r => r.word == w) := by
  induction db with
  | nil => rfl
  | cons r rs ih =>
      rw [List.filter_cons]
      by_cases hr : (r.word == a) = true
      · have h2 : (r.word == w) = false := by
          have hra : r.word = a := by simpa using hr
          simp [hra, Ne.symm hne]
        simp only [hr, Bool.not_true, Bool.false_eq_true, if_false]
        rw [List.find?_cons_of_neg rs (by simp [h2]), ih]
      · simp only [Bool.not_eq_true] at hr
        simp only [hr, Bool.not_false, if_true]
        cases hpw : (r.word == w) with
        | true =>
            rw [List.find?_cons_of_pos (rs.filter (fun r => !(r.word == a))) hpw,
              List.find?_cons_of_pos rs hpw]
        | false =>
            rw [List.find?_cons_of_neg (rs.filter (fun r => !(r.word == a)))
                (by simp [hpw]),
              List.find?_cons_of_neg rs (by simp [hpw])]
            exact ih

theorem getRow_deleteWord_self (db : Db) (a : String) :
    getRow (deleteWord db a) a = none := by
  rw [getRow, List.find?_eq_none]
  intro r hr
  simp only [deleteWord, List.mem_filter, Bool.not_eq_true', beq_eq_false_iff_ne,
    ne_eq] at hr
  simp [hr.2]

theorem getRow_addWord_some (db : Db) (v w : String) {r : Word}
    (h : getRow db w = some r) :
    ∃ r', getRow (addWord db v) w = some r' ∧ stepRel r r' := by
  unfold addWord
  by_cases hc : countWord db v = 0
  · rw [if_pos hc]
    refine ⟨r, ?_, stepRel_refl r⟩
    show (db ++ [(⟨v, none, some 0, some 0⟩ : Word)]).find? (fun x => x.word == w)
      = some r
    rw [List.find?_append]
    unfold getRow at h
    rw [h]
    rfl
  · rw [if_neg hc]
    refine ⟨addWordCountFun v r, ?_, stepRel_addWordCountFun v r⟩
    rw [getRow_addWordCount, h]
    rfl

theorem getRow_foldl_addWord (ws : List String) :
    ∀ (db : Db) (w : String) (r : Word), getRow db w = some r →
      ∃ r', getRow (ws.foldl addWord db) w = some r' ∧ stepRel r r' := by
  induction ws with
  | nil => exact fun db w r h => ⟨r, h, stepRel_refl r⟩
  | cons v vs ih =>
      intro db w r h
      obtain ⟨r₁, h₁, hs₁⟩ := getRow_addWord_some db v w h
      obtain ⟨r', h', hs'⟩ := ih (addWord db v) w r₁ h₁
      exact ⟨r', h', stepRel_trans hs₁ hs'⟩

theorem getRow_applyOp_some (op : Op) (db : Db) (w : String) {r r' : Word}
    (h : getRow db w = some r) (h' : getRow (applyOp op db) w = some r') :
    stepRel r r' := by
  cases op with
  | initSchema =>
      rw [show applyOp Op.initSchema db = db from rfl, h] at h'
      cases h'
      exact stepRel_refl r
  | showOp =>
      rw [show applyOp Op.showOp db = db from rfl, h] at h'
      cases h'
      exact stepRel_refl r
  | serve =>
      rw [show applyOp Op.serve db = db from rfl, h] at h'
      cases h'
      exact stepRel_refl r
  | add s =>
      obtain ⟨r'', h'', hs⟩ := getRow_foldl_addWord (filterWords s) db w r h
      rw [show applyOp (Op.add s) db = (filterWords s).foldl addWord db from rfl,
        h''] at h'
      cases h'
      exact hs
  | del a =>
      by_cases hwa : w = a
      · subst hwa
        rw [show applyOp (Op.del w) db = deleteWord db w from rfl,
          getRow_deleteWord_self] at h'
        cases h'
      · rw [show applyOp (Op.del a) db = deleteWord db a from rfl, getRow,
          deleteWord, find?_filter_beq db w a hwa, ← getRow, h] at h'
        cases h'
        exact stepRel_refl r

theorem applyOps_stepRel (ops : List Op) :
    ∀ (db : Db) (w : String) (r r' : Word), getRow db w = some r →
      aliveThrough ops db w → getRow (applyOps ops db) w = some r' →
      stepRel r r' := by
  induction ops with
  | nil =>
      intro db w r r' h _ h'
      rw [show applyOps [] db = db from rfl, h] at h'
      cases h'
      exact stepRel_refl r
  | cons op rest ih =>
      intro db w r r' h halive h'
      obtain ⟨hsome, halive'⟩ := halive
      obtain ⟨r₁, h₁⟩ := Option.isSome_iff_exists.mp hsome
      have hs₁ := getRow_applyOp_some op db w h h₁
      rw [show applyOps (op :: rest) db = applyOps rest (applyOp op db) from rfl] at h'
      exact stepRel_trans hs₁ (ih (applyOp op db) w r₁ r' h₁ halive' h')

theorem lookupZeroAt_addWord (db : Db) (v w : String) (h : lookupZeroAt db w) :
    lookupZeroAt (addWord db v) w := by
  intro r' h'
  unfold addWord at h'
  by_cases hc : countWord db v = 0
  · rw [if_pos hc] at h'
    unfold createWord getRow at h'
    rw [List.find?_append] at h'
    cases hfind : db.find? (fun r => r.word == w) with
    | some r =>
        rw [hfind] at h'
        have hrr : r = r' := by simpa using h'
        subst hrr
        exact h r hfind
    | none =>
        rw [hfind, Option.none_or] at h'
        by_cases hvw : ((⟨v, none, some 0, some 0⟩ : Word).word == w) = true
        · rw [@List.find?_cons_of_pos _ (fun x => x.word == w)
              (⟨v, none, some 0, some 0⟩ : Word) [] hvw] at h'
          cases h'
          rfl
        · rw [@List.find?_cons_of_neg _ (fun x => x.word == w)
              (⟨v, none, some 0, some 0⟩ : Word) [] hvw] at h'
          cases h'
  · rw [if_neg hc, getRow_addWordCount] at h'
    cases hfind : getRow db w with
    | none => rw [hfind] at h'; cases h'
    | some r =>
        rw [hfind] at h'
        have hrr : addWordCountFun v r = r' := by simpa using h'
        subst hrr
        rw [lookupCount_addWordCountFun]
        exact h r hfind

theorem lookupZeroAt_foldl_addWord (ws : List String) :
    ∀ (db : Db) (w : String), lookupZeroAt db w →
      lookupZeroAt (ws.foldl addWord db) w := by
  induction ws with
  | nil => exact fun db w h => h
  | cons v vs ih =>
      intro db w h
      exact ih (addWord db v) w (lookupZeroAt_addWord db v w h)

theorem lookupZeroAt_applyOp (op : Op) (db : Db) (w : String)
    (h : lookupZeroAt db w) : lookupZeroAt (applyOp op db) w := by
  cases op with
  | initSchema => exact h
  | showOp => exact h
  | serve => exact h
  | add s => exact lookupZeroAt_foldl_addWord (filterWords s) db w h
  | del a =>
      intro r' h'
      by_cases hwa : w = a
      · subst hwa
        rw [show applyOp (Op.del w) db = deleteWord db w from rfl,
          getRow_deleteWord_self] at h'
        cases h'
      · rw [show applyOp (Op.del a) db = deleteWord db a from rfl, getRow,
          deleteWord, find?_filter_beq db w a hwa, ← getRow] at h'
        exact h r' h'

theorem lookupZeroAt_applyOps (ops : List Op) :
    ∀ (db : Db) (w : String), lookupZeroAt db w →
      lookupZeroAt (applyOps ops db) w := by
  induction ops with
  | nil => exact fun db w h => h
  | cons op rest ih =>
      intro db w h
      exact ih (applyOp op db) w (lookupZeroAt_applyOp op db w h)

theorem allLookupZero_addWord (db : Db) (v : String) (h : allLookupZero db) :
    allLookupZero (addWord db v) := by
  intro r hr
  unfold addWord at hr
  by_cases hc : countWord db v = 0
  · rw [if_pos hc] at hr
    unfold createWord at hr
    rcases List.mem_append.mp hr with hin | hin
    · exact h r hin
    · rw [List.mem_singleton.mp hin]
  · rw [if_neg hc] at hr
    unfold addWordCount at hr
    obtain ⟨r₀, hr₀, rfl⟩ := List.mem_map.mp hr
    rw [lookupCount_addWordCountFun]
    exact h r₀ hr₀

theorem allLookupZero_foldl_addWord (ws : List String) :
    ∀ db : Db, allLookupZero db → allLookupZero (ws.foldl addWord db) := by
  induction ws with
  | nil => exact fun _ h => h
  | cons v vs ih =>
      intro db h
      exact ih (addWord db v) (allLookupZero_addWord db v h)

theorem allLookupZero_applyOp (op : Op) (db : Db) (h : allLookupZero db) :
    allLookupZero (applyOp op db) := by
  cases op with
  | initSchema => exact h
  | showOp => exact h
  | serve => exact h
  | add s => exact allLookupZero_foldl_addWord (filterWords s) db h
  | del a =>
      intro r hr
      exact h r (List.mem_of_mem_filter hr)

theorem allLookupZero_applyOps (ops : List Op) :
    ∀ db : Db, allLookupZero db → allLookupZero (applyOps ops db) := by
  induction ops with
  | nil => exact fun _ h => h
  | cons op rest ih =>
      intro db h
      exact ih (applyOp op db) (allLookupZero_applyOp op db h)

theorem addWordE_write_fatal (db : Db) (w : String) (ce : Bool) :
    addWordE db w ⟨ce, true, true⟩ = .fatal := by
  unfold addWordE
  split <;> simp

theorem showSummary_filter (db : Db) (w : String) :
    (showSummary db).filter (fun l => l.word == w)
      = (db.filter (fun r => r.word == w)).map summaryLine := by
  unfold showSummary listword
  rw [List.filter_map]
  congr 1

/-! ## Claim theorems -/

/-- C1: `filterWords` splits its input on `,`, trims and lowercases each
piece, and keeps exactly the pieces matching `^[a-z]+$`, preserving order and
duplicates (a map-filter-map, possibly empty); every output token is valid;
on `"Cat, dog2, , ELEPHANT "` it returns `["cat", "elephant"]`; and the
non-ASCII lowercase mappings into `a`-`z` are honoured: U+212A (KELVIN SIGN)
yields `["k"]` and U+0130 (`İ`) yields `["i"]`. -/
theorem filterWords_correct :
    (∀ s : String,
        filterWords s
          = (((splitOnComma s.data).map normalizeTok).filter isValidWord).map
              String.mk)
    ∧ (∀ s : String, ∀ w ∈ filterWords s, isValidWord w.data = true)
    ∧ filterWords "Cat, dog2, , ELEPHANT " = ["cat", "elephant"]
    ∧ filterWords "\u212A" = ["k"]
    ∧ filterWords "İ" = ["i"] := by
  refine ⟨fun s => ?_, fun s w hw => ?_, by decide, by decide, by decide⟩
  · simpa using filterWords_foldl [] (splitOnComma s.data)
  · have h := filterWords_foldl [] (splitOnComma s.data)
    simp only [filterWords] at hw
    rw [h] at hw
    simp only [List.nil_append, List.mem_map, List.mem_filter] at hw
    obtain ⟨l, ⟨_, hvalid⟩, rfl⟩ := hw
    exact hvalid

/-- C2: when no record for `w` exists, `AddWord` appends exactly one new
record for `w`, with `added_count = 0`, `lookup_count = 0` and a NULL
translation; afterwards exactly one record for `w` exists. -/
theorem addWord_absent (db : Db) (w : String) (h : countWord db w = 0) :
    addWord db w = db ++ [⟨w, none, some 0, some 0⟩]
    ∧ countWord (addWord db w) w = 1
    ∧ getRow (addWord db w) w = some ⟨w, none, some 0, some 0⟩ := by
  have habs := countWord_eq_zero.mp h
  have h1 := addWord_of_count_zero h
  refine ⟨h1, ?_, ?_⟩
  · rw [h1]
    simp only [countWord, List.filter_append, List.length_append]
    have : db.filter (fun r => r.word == w) = [] := by
      rw [List.filter_eq_nil_iff]
      intro r hr
      simp [habs r hr]
    rw [this]
    simp
  · rw [h1]
    simp only [getRow, List.find?_append]
    have : db.find? (fun r => r.word == w) = none := by
      rw [List.find?_eq_none]
      intro r hr
      simp [habs r hr]
    rw [this]
    simp

/-- C2 witness: adding `"cat"` to the empty store. -/
theorem addWord_absent_witness :
    countWord [] "cat" = 0
    ∧ addWord [] "cat" = [⟨"cat", none, some 0, some 0⟩] :=
  ⟨by decide, (addWord_absent [] "cat" (by decide)).1⟩

/-- C3: when a record for `w` exists, `AddWord` rewrites the store pointwise:
the record(s) for `w` get `added_count` incremented by exactly one with
`zh_trans` and `lookup_count` untouched, and every other record is returned
unchanged (same position, same fields). -/
theorem addWord_present (db : Db) (w : String) (h : countWord db w ≠ 0) :
    ∀ i : Nat, (addWord db w)[i]? = (db[i]?).map (addWordCountFun w) := by
  intro i
  simp [addWord, h, addWordCount]

/-- C3 witness: a second add of `"cat"` bumps only its `added_count`. -/
theorem addWord_present_witness :
    countWord [⟨"cat", none, some 0, some 0⟩, ⟨"dog", some "t", some 4, some 0⟩] "cat" ≠ 0
    ∧ (addWord [⟨"cat", none, some 0, some 0⟩, ⟨"dog", some "t", some 4, some 0⟩] "cat")[0]?
        = some ⟨"cat", none, some 1, some 0⟩
    ∧ (addWord [⟨"cat", none, some 0, some 0⟩, ⟨"dog", some "t", some 4, some 0⟩] "cat")[1]?
        = some ⟨"dog", some "t", some 4, some 0⟩ := by
  refine ⟨by decide, ?_, ?_⟩
  · rw [addWord_present _ "cat" (by decide) 0]; decide
  · rw [addWord_present _ "cat" (by decide) 1]; decide

/-- C4: across any sequence of exposed operations (init, add, delete, show,
serve), for a record alive at every step, `added_count` and `lookup_count`
never decrease and `lookup_count` is never changed (hence never incremented);
a record that appears during the sequence is created with `lookup_count = 0`;
and the all-lookup-counts-zero invariant is preserved by every sequence, so
`lookup_count` stays `0` from creation until deletion. -/
theorem counters_monotone :
    (∀ (ops : List Op) (db : Db) (w : String) (r r' : Word),
        getRow db w = some r → aliveThrough ops db w →
        getRow (applyOps ops db) w = some r' →
        r.addedCount.getD 0 ≤ r'.addedCount.getD 0
        ∧ r.lookupCount.getD 0 ≤ r'.lookupCount.getD 0
        ∧ r'.lookupCount = r.lookupCount)
    ∧ (∀ (ops : List Op) (db : Db) (w : String) (r' : Word),
        getRow db w = none → getRow (applyOps ops db) w = some r' →
        r'.lookupCount = some 0)
    ∧ (∀ (ops : List Op) (db : Db),
        allLookupZero db → allLookupZero (applyOps ops db)) := by
  refine ⟨fun ops db w r r' h ha h' => ?_, fun ops db w r' h h' => ?_,
    fun ops db h => allLookupZero_applyOps ops db h⟩
  · have hs := applyOps_stepRel ops db w r r' h ha h'
    exact ⟨hs.2, le_of_eq (by rw [hs.1]), hs.1⟩
  · have hz : lookupZeroAt db w := by
      intro r₀ hr₀
      rw [h] at hr₀
      cases hr₀
    exact lookupZeroAt_applyOps ops db w hz r' h'

/-- C4 witness: one `add "x"` step on a store already holding `"x"`. -/
theorem counters_monotone_witness :
    ((⟨"x", none, some 0, some 0⟩ : Word).addedCount.getD 0
        ≤ (⟨"x", none, some 1, some 0⟩ : Word).addedCount.getD 0)
    ∧ ((⟨"x", none, some 0, some 0⟩ : Word).lookupCount.getD 0
        ≤ (⟨"x", none, some 1, some 0⟩ : Word).lookupCount.getD 0)
    ∧ (⟨"x", none, some 1, some 0⟩ : Word).lookupCount
        = (⟨"x", none, some 0, some 0⟩ : Word).lookupCount := by
  have halive : aliveThrough [Op.add "x"] [⟨"x", none, some 0, some 0⟩] "x" := by
    refine ⟨?_, trivial⟩
    decide
  exact counters_monotone.1 [Op.add "x"] [⟨"x", none, some 0, some 0⟩] "x"
    ⟨"x", none, some 0, some 0⟩ ⟨"x", none, some 1, some 0⟩
    (by decide) halive (by decide)

/-- C5: starting from a store with no record for `w`, `n ≥ 1` consecutive
adds of `w` (no intervening delete) leave exactly one record for `w`, with
`added_count = n - 1`, NULL translation and `lookup_count = 0`; the summary
output then lists exactly one line for `w` showing `added_count = n - 1`. -/
theorem addNTimes_fresh (db : Db) (w : String) (n : Nat)
    (h0 : countWord db w = 0) (hn : 1 ≤ n) :
    countWord (addNTimes n db w) w = 1
    ∧ (addNTimes n db w).filter (fun r => r.word == w)
        = [⟨w, none, some ((n : Int) - 1), some 0⟩]
    ∧ (showSummary (addNTimes n db w)).filter (fun l => l.word == w)
        = [⟨w, (n : Int) - 1, 0, ""⟩] := by
  obtain ⟨m, rfl⟩ : ∃ m, n = m + 1 := ⟨n - 1, by omega⟩
  have hstep := addWord_of_count_zero h0
  have hfil : (addWord db w).filter (fun r => r.word == w)
      = [⟨w, none, some 0, some 0⟩] := by
    rw [hstep, List.filter_append, filter_eq_nil_of_count_zero h0]
    simp
  have hmain := addNTimes_filter w m (addWord db w) 0 hfil
  have hval : ((0 : Int) + m) = ((m + 1 : Nat) : Int) - 1 := by
    push_cast
    ring
  have hrw : addNTimes (m + 1) db w = addNTimes m (addWord db w) w := rfl
  rw [hrw]
  refine ⟨?_, ?_, ?_⟩
  · unfold countWord
    rw [hmain]
    rfl
  · rw [hmain, hval]
  · rw [showSummary_filter, hmain, hval]
    simp [summaryLine]

/-- C5 witness: two adds of `"x"` on the empty store. -/
theorem addNTimes_fresh_witness :
    countWord (addNTimes 2 [] "x") "x" = 1
    ∧ (addNTimes 2 [] "x").filter (fun r => r.word == "x")
        = [⟨"x", none, some ((2 : Int) - 1), some 0⟩]
    ∧ (showSummary (addNTimes 2 [] "x")).filter (fun l => l.word == "x")
        = [⟨"x", (2 : Int) - 1, 0, ""⟩] :=
  addNTimes_fresh [] "x" 2 (by decide) (by decide)

/-- C6: `DeleteWord` removes every record for `w` (none remains afterwards);
when no record for `w` exists the store — and hence the summary output — is
unchanged; and deletion is idempotent. The operation is total: the model has
no error outcome for a missing word (`DELETE` affecting zero rows succeeds). -/
theorem deleteWord_correct (db : Db) (w : String) :
    countWord (deleteWord db w) w = 0
    ∧ (countWord db w = 0 →
        deleteWord db w = db ∧ showSummary (deleteWord db w) = showSummary db)
    ∧ deleteWord (deleteWord db w) w = deleteWord db w := by
  have hzero : countWord (deleteWord db w) w = 0 := by
    rw [countWord_eq_zero]
    intro r hr
    simp only [deleteWord, List.mem_filter, Bool.not_eq_true', beq_eq_false_iff_ne,
      ne_eq] at hr
    exact hr.2
  refine ⟨hzero, fun h => ?_, ?_⟩
  · have habs := countWord_eq_zero.mp h
    have heq : deleteWord db w = db := by
      apply List.filter_eq_self.mpr
      intro r hr
      simp [habs r hr]
    exact ⟨heq, by rw [heq]⟩
  · simp [deleteWord, List.filter_filter]

/-- C6 witness: deleting `"dog"` (absent) from a one-row store changes
nothing, and deleting is idempotent there. -/
theorem deleteWord_correct_witness :
    countWord [(⟨"cat", none, some 0, some 0⟩ : Word)] "dog" = 0
    ∧ deleteWord [(⟨"cat", none, some 0, some 0⟩ : Word)] "dog"
        = [⟨"cat", none, some 0, some 0⟩] :=
  ⟨by decide,
    ((deleteWord_correct [⟨"cat", none, some 0, some 0⟩] "dog").2.1 (by decide)).1⟩

/-- C7 counterexample: the claim "every store error is fatal and a store
failure on one word aborts the whole multi-word add" is false at a concrete
input: `AddWord` discards the `CountWord` query error (`count, _ := ...`),
so with a count-query fault on `"cat"` over the empty store the process does
not terminate — the word is inserted and the loop continues to `"dog"`. -/
theorem store_error_fatal_cex :
    addWordE [] "cat" ⟨true, false, false⟩ = .ok [⟨"cat", none, some 0, some 0⟩]
    ∧ addWordE [] "cat" ⟨true, false, false⟩ ≠ .fatal
    ∧ addAllE [] [("cat", ⟨true, false, false⟩), ("dog", ⟨false, false, false⟩)]
        = .ok [⟨"cat", none, some 0, some 0⟩, ⟨"dog", none, some 0, some 0⟩] := by
  refine ⟨by decide, by decide, by decide⟩

/-- C7 (amended): errors from store write statements (INSERT via
`CreateWord`, UPDATE via `AddWordCount`, DELETE via `DeleteWord`) are fatal —
the process terminates via `log.Fatal`, and during a multi-word add a write
failure on one word aborts the entire process before any later word is
processed; but a `CountWord` query error is silently discarded and the count
is treated as `0`. -/
theorem write_error_fatal :
    (∀ (db : Db) (w : String) (ce : Bool),
        addWordE db w ⟨ce, true, true⟩ = .fatal)
    ∧ (∀ (db : Db) (w : String) (ce : Bool) (rest : List (String × Faults)),
        addAllE db ((w, ⟨ce, true, true⟩) :: rest) = .fatal)
    ∧ (∀ (db : Db) (w : String), delWordE db w true = .fatal)
    ∧ (∀ (db : Db) (w : String), countWord db w = 0 →
        addWordE db w ⟨true, false, false⟩ = .ok (createWord db w none)) := by
  refine ⟨addWordE_write_fatal, fun db w ce rest => ?_, fun db w => rfl,
    fun db w h => ?_⟩
  · unfold addAllE
    rw [addWordE_write_fatal]
  · unfold addWordE
    simp [h]

/-- C7 (amended) witness: a count-query fault on the empty store is survived
and the word is still created. -/
theorem write_error_fatal_witness :
    countWord [] "a" = 0
    ∧ addWordE [] "a" ⟨true, false, false⟩ = .ok (createWord [] "a" none) :=
  ⟨by decide, write_error_fatal.2.2.2 [] "a" (by decide)⟩

/-- C8: the plaintext renderer (`ShowSummary`) and the hypertext renderer
(web root page) share the same underlying read (`Listword`) and extract the
same `(word, added_count, lookup_count, translation-defaulted-to-empty)`
values per row; they differ only in the rendering target. -/
theorem renderers_agree :
    (∀ db : Db, showSummary db = webRows db)
    ∧ (∀ db : Db, showSummary db = (listword db).map summaryLine)
    ∧ (∀ db : Db, webRows db = (listword db).map summaryLine) :=
  ⟨fun _ => rfl, fun _ => rfl, fun _ => rfl⟩

/-- C9: the `/word/` handler returns 404 exactly when the path remainder
after the `/word/` prefix, with a trailing slash removed, is empty, and
otherwise returns a 301 redirect to the dictionary URL with that word
appended — so the target contains the requested word as a substring;
`GET /word/` yields 404 and `GET /word/cat` yields a 301 whose target
contains `cat`. -/
theorem wordHandler_correct :
    (∀ path : String,
        wordHandler path
          = if wordOfPath path = [] then .httpError 404 "word not found"
            else .redirect 301 (String.mk (dictURL.data ++ wordOfPath path)))
    ∧ (∀ path : String,
        wordOfPath path <:+: (String.mk (dictURL.data ++ wordOfPath path)).data)
    ∧ wordHandler "/word/" = .httpError 404 "word not found"
    ∧ wordHandler "/word/cat"
        = .redirect 301
            "https://dictionary.cambridge.org/dictionary/english-chinese-simplified/cat"
    ∧ "cat".data
        <:+: ("https://dictionary.cambridge.org/dictionary/english-chinese-simplified/cat").data := by
  refine ⟨fun path => rfl, fun path => ⟨dictURL.data, [], by simp⟩,
    by decide, by decide, ?_⟩
  exact ⟨"https://dictionary.cambridge.org/dictionary/english-chinese-simplified/".data,
    [], by decide⟩

/-- C10: the `-d` action passes its raw argument to the store (no trim, no
lowercasing, no validation); on a store whose keys all satisfy `^[a-z]+$`,
deleting any argument containing a character outside `a`-`z` is a no-op. -/
theorem runDelete_invalid_arg (db : Db) (arg : String)
    (hdb : ∀ r ∈ db, isValidWord r.word.data = true)
    (harg : ∃ c ∈ arg.data, ¬('a' ≤ c ∧ c ≤ 'z')) :
    runDelete db arg = db := by
  obtain ⟨c, hc, hcrange⟩ := harg
  apply List.filter_eq_self.mpr
  intro r hr
  simp only [Bool.not_eq_true', beq_eq_false_iff_ne, ne_eq]
  intro heq
  have hv := hdb r hr
  simp only [isValidWord, Bool.and_eq_true, List.all_eq_true] at hv
  have := hv.2 c (by rw [heq]; exact hc)
  simp only [Bool.and_eq_true, decide_eq_true_eq] at this
  exact hcrange this

/-- C10 witness: deleting `"Cat"` from a store keyed by `"cat"` is a no-op. -/
theorem runDelete_invalid_arg_witness :
    runDelete [(⟨"cat", none, some 0, some 0⟩ : Word)] "Cat"
      = [⟨"cat", none, some 0, some 0⟩] :=
  runDelete_invalid_arg [⟨"cat", none, some 0, some 0⟩] "Cat"
    (by decide) ⟨'C', by decide, by decide⟩

end W2R
